import Mathlib

set_option maxHeartbeats 1000000

/-!
Shallow embedding of the simplekv log-structured storage engine
(src/engine/kv.rs).  Files are modelled as an association list from
generation number to the list of records the segment contains; byte
positions are tracked through the modelled encoding length of each
record.  All IO errors other than record-resolution failures are not
modelled (the happy path of the file system is assumed).
-/

/-- Log records (source: enum Command in kv.rs). -/
inductive Command where
  | set (key value : String)
  | remove (key : String)
deriving DecidableEq

/-- Modelled byte length of the serde_json encoding of a record, for
escape-free strings; the engine only ever compares and adds these
lengths, so only their consistency matters. -/
def encLen : Command → Nat
  | Command.set k v => 29 + k.length + v.length
  | Command.remove k => 21 + k.length

/-- Source: struct CommandIndex in kv.rs. -/
structure CommandIndex where
  version : Nat
  start : Nat
  len : Nat
deriving DecidableEq

/-- The in-memory index (source: SkipMap of String to CommandIndex),
modelled as an association list with unique keys. -/
abbrev Index := List (String × CommandIndex)

/-- Lookup in the index (source: SkipMap::get). -/
def idxLookup : Index → String → Option CommandIndex
  | [], _ => none
  | (k', ci) :: rest, k => if k' = k then some ci else idxLookup rest k

/-- Removal from the index (source: SkipMap::remove). -/
def idxErase : Index → String → Index
  | [], _ => []
  | (k', ci) :: rest, k =>
      if k' = k then idxErase rest k else (k', ci) :: idxErase rest k

/-- Insert-or-replace in the index (source: SkipMap::insert). -/
def idxInsert (ix : Index) (k : String) (ci : CommandIndex) : Index :=
  (k, ci) :: idxErase ix k

/-- The segment directory: generation number paired with the records the
segment file contains, in file order. -/
abbrev Files := List (Nat × List Command)

/-- Open the segment file of a generation. -/
def filesLookup : Files → Nat → Option (List Command)
  | [], _ => none
  | (g', cs) :: rest, g => if g' = g then some cs else filesLookup rest g

/-- Append records at the end of the segment file of a generation. -/
def filesAppend : Files → Nat → List Command → Files
  | [], _, _ => []
  | (g', cs) :: rest, g, l =>
      if g' = g then (g', cs ++ l) :: filesAppend rest g l
      else (g', cs) :: filesAppend rest g l

/-- Create an empty segment file unless it already exists (source:
new_log_file_ with OpenOptions create+append). -/
def filesCreate (fs : Files) (g : Nat) : Files :=
  match filesLookup fs g with
  | some _ => fs
  | none => fs ++ [(g, [])]

/-- Delete every segment whose generation is strictly below g (source:
the stale_gens loop at the end of KvStoreWriter::compact). -/
def deleteBelow : Files → Nat → Files
  | [], _ => []
  | (g', cs) :: rest, g =>
      if g' < g then deleteBelow rest g else (g', cs) :: deleteBelow rest g

/-- Generations present in the directory. -/
def gens (fs : Files) : List Nat := fs.map Prod.fst

/-- Whether the segment file of a generation is present on disk. -/
def fileExists (fs : Files) (g : Nat) : Bool := (filesLookup fs g).isSome

/-- Total encoded length of a list of records. -/
def totalLen : List Command → Nat
  | [] => 0
  | c :: rest => encLen c + totalLen rest

/-- Locate the record that occupies exactly the byte range
[start, start+len) in a record list laid out from offset pos; any
misaligned range fails to decode (source: KvStoreReader::read_command,
which seeks to the start offset and json-decodes exactly len bytes). -/
def findRec : List Command → Nat → Nat → Nat → Option Command
  | [], _, _, _ => none
  | c :: rest, pos, start, len =>
      if start = pos then (if len = encLen c then some c else none)
      else findRec rest (pos + encLen c) start len

/-- Resolve a CommandIndex against the segment directory. -/
def readCmd (fs : Files) (ci : CommandIndex) : Option Command :=
  match filesLookup fs ci.version with
  | none => none
  | some cs => findRec cs 0 ci.start ci.len

/-- Error kinds of the engine (source: KvError). -/
inductive KvError where
  | KeyNotFound
  | UnexpectedCommandType
  | Io
deriving DecidableEq

/-- Engine state shared between writer and readers: the segment
directory, the active generation, the wasted-bytes counter, the
in-memory index and the safe point. -/
structure KvState where
  files : Files
  currVersion : Nat
  uncompacted : Nat
  index : Index
  safePoint : Nat
deriving DecidableEq

/-- Source: const COMPACTION_THRESHOLD, 1 MiB. -/
def COMPACTION_THRESHOLD : Nat := 1048576

/-- Offset tracked by the active BufWriterWithIndex: the total length of
the active segment (the file is opened in append mode when created). -/
def writerPos (s : KvState) : Nat :=
  totalLen ((filesLookup s.files s.currVersion).getD [])

/-- Replay of one segment file (source: fn load in kv.rs): walk the
records, tracking start offsets; a Set inserts an index entry and counts
the overwritten record as waste, a Remove deletes the entry and counts
both the old record and itself as waste. -/
def load (gen : Nat) : List Command → Nat → Index → Nat → Index × Nat
  | [], _, ix, unc => (ix, unc)
  | Command.set k v :: rest, pos, ix, unc =>
      load gen rest (pos + encLen (Command.set k v))
        (idxInsert ix k ⟨gen, pos, encLen (Command.set k v)⟩)
        (match idxLookup ix k with
         | some old => unc + old.len
         | none => unc)
  | Command.remove k :: rest, pos, ix, unc =>
      load gen rest (pos + encLen (Command.remove k)) (idxErase ix k)
        ((match idxLookup ix k with
          | some old => unc + old.len
          | none => unc) + encLen (Command.remove k))

/-- Replay a list of generations in order over the directory (source:
the replay loop in KvStore::open). -/
def replayGens (fs : Files) (gl : List Nat) : Index × Nat :=
  gl.foldl (fun r g => load g ((filesLookup fs g).getD []) 0 r.1 r.2) ([], 0)

/-- Ascending list of the generations present in the directory (the
generation-level view of get_log_list). -/
def sortGens (fs : Files) : List Nat :=
  List.insertionSort (fun a b => a ≤ b) (gens fs)

/-- Replay every surviving segment in ascending generation order. -/
def replayAll (fs : Files) : Index × Nat := replayGens fs (sortGens fs)

/-- Source: KvStore::open, over the generation-level directory view:
replay all segments ascending, then create the new active segment at
max+1 (1 when the directory is empty). -/
def openStore (dir : Files) : KvState :=
  let sorted := sortGens dir
  let r := replayGens dir sorted
  let cg := sorted.getLast?.getD 0 + 1
  { files := filesCreate dir cg
  , currVersion := cg
  , uncompacted := r.2
  , index := r.1
  , safePoint := 0 }

/-- The engine opened over an empty directory. -/
def initState : KvState := openStore []

/-- The copy loop of KvStoreWriter::compact: stream every index entry
into the compaction segment, assigning consecutive destination offsets;
fails when an entry does not resolve (an IO/decode error in the
source). -/
def compactLoop : Index → Files → Nat → Nat → Option (Index × List Command)
  | [], _, _, _ => some ([], [])
  | (k, ci) :: rest, fs, cv, pos =>
      match readCmd fs ci with
      | none => none
      | some c =>
          match compactLoop rest fs cv (pos + ci.len) with
          | none => none
          | some (ixr, cr) => some ((k, ⟨cv, pos, ci.len⟩) :: ixr, c :: cr)

/-- Source: KvStoreWriter::compact.  Two-generation stride: the live
records are copied into generation curr+1, the new active segment is
curr+2, the safe point becomes curr+1 and every segment strictly below
curr+1 is deleted; the wasted-bytes counter is reset. -/
def compact (s : KvState) : Option KvState :=
  let cv := s.currVersion + 1
  let nv := s.currVersion + 2
  let fs1 := filesCreate (filesCreate s.files nv) cv
  match compactLoop s.index fs1 cv 0 with
  | none => none
  | some (ix, copied) =>
      some { files := deleteBelow (filesAppend fs1 cv copied) cv
           , currVersion := nv
           , uncompacted := 0
           , index := ix
           , safePoint := cv }

/-- Body of KvStoreWriter::set before the compaction trigger: append the
Set record to the active segment, count the overwritten record as waste,
insert the new index entry. -/
def writerSet (s : KvState) (k v : String) : KvState :=
  let c := Command.set k v
  let pos := writerPos s
  { s with files := filesAppend s.files s.currVersion [c]
         , uncompacted :=
             (match idxLookup s.index k with
              | some old => s.uncompacted + old.len
              | none => s.uncompacted)
         , index := idxInsert s.index k ⟨s.currVersion, pos, encLen c⟩ }

/-- Source: KvStoreWriter::set, including the compaction trigger. -/
def doSet (s : KvState) (k v : String) : Option KvState :=
  let s' := writerSet s k v
  if COMPACTION_THRESHOLD < s'.uncompacted then compact s' else some s'

/-- Body of KvStoreWriter::remove before the compaction trigger: fail
with KeyNotFound when the key is absent, otherwise append a Remove
record, drop the index entry and count both the old record and the new
Remove record as waste. -/
def writerRemove (s : KvState) (k : String) : Except KvError KvState :=
  match idxLookup s.index k with
  | none => Except.error KvError.KeyNotFound
  | some old =>
      let c := Command.remove k
      Except.ok
        { s with files := filesAppend s.files s.currVersion [c]
               , uncompacted := s.uncompacted + old.len + encLen c
               , index := idxErase s.index k }

/-- Source: KvStoreWriter::remove, including the compaction trigger. -/
def doRemove (s : KvState) (k : String) : Except KvError KvState :=
  match writerRemove s k with
  | Except.error e => Except.error e
  | Except.ok s' =>
      if COMPACTION_THRESHOLD < s'.uncompacted then
        match compact s' with
        | some s'' => Except.ok s''
        | none => Except.error KvError.Io
      else Except.ok s'

/-- Source: KvEngine::get for KvStore: resolve the index entry; a
missing key is Ok none, an entry that decodes to a Remove record is
UnexpectedCommandType. -/
def storeGet (s : KvState) (k : String) : Except KvError (Option String) :=
  match idxLookup s.index k with
  | none => Except.ok none
  | some ci =>
      match readCmd s.files ci with
      | none => Except.error KvError.Io
      | some (Command.set _ v) => Except.ok (some v)
      | some (Command.remove _) => Except.error KvError.UnexpectedCommandType

/-- A reader handle's private cache of open segment readers, modelled as
the set of cached generations (source: KvStoreReader.readers). -/
abbrev Cache := List Nat

/-- Source: KvStoreReader::remove_timeout_log: evict every cached
generation strictly below the safe point. -/
def remove_timeout_log : Cache → Nat → Cache
  | [], _ => []
  | g :: rest, sp =>
      if g < sp then remove_timeout_log rest sp
      else g :: remove_timeout_log rest sp

/-- Cache effect of KvStoreReader::read_command: evict below the safe
point, then lazily open the referenced generation if absent. -/
def read_command_cache (c : Cache) (sp : Nat) (ci : CommandIndex) : Cache :=
  let c' := remove_timeout_log c sp
  if ci.version ∈ c' then c' else ci.version :: c'

/-- KvStore::get together with the state it can see: the shared engine
state is threaded through untouched, only the calling handle's private
cache is updated by read_command. -/
def getSession (s : KvState) (c : Cache) (k : String) :
    Except KvError (Option String) × KvState × Cache :=
  match idxLookup s.index k with
  | none => (Except.ok none, s, c)
  | some ci =>
      let c' := read_command_cache c s.safePoint ci
      match readCmd s.files ci with
      | none => (Except.error KvError.Io, s, c')
      | some (Command.set _ v) => (Except.ok (some v), s, c')
      | some (Command.remove _) => (Except.error KvError.UnexpectedCommandType, s, c')

/-- One client-visible engine operation. -/
inductive Op where
  | set (k v : String)
  | remove (k : String)
deriving DecidableEq

/-- Effect of one operation on the engine state; a failed remove leaves
the state unchanged (the caller just observes the KeyNotFound error),
and an unmodelled IO failure aborts the run. -/
def stepOp (s : KvState) : Op → Option KvState
  | Op.set k v => doSet s k v
  | Op.remove k =>
      match doRemove s k with
      | Except.ok s' => some s'
      | Except.error KvError.KeyNotFound => some s
      | Except.error _ => none

/-- Run a sequence of operations. -/
def runOps : KvState → List Op → Option KvState
  | s, [] => some s
  | s, op :: rest =>
      match stepOp s op with
      | none => none
      | some s' => runOps s' rest

/-- The abstract map semantics of one operation. -/
def specStep (m : String → Option String) : Op → String → Option String
  | Op.set k v => fun k' => if k = k' then some v else m k'
  | Op.remove k => fun k' => if k = k' then none else m k'

/-- The abstract map semantics of a sequence of operations. -/
def specRun (m : String → Option String) : List Op → String → Option String
  | [] => m
  | op :: rest => specRun (specStep m op) rest

/-- The empty abstract store. -/
def emptyMap : String → Option String := fun _ => none

deriving instance DecidableEq for Except

/-- A directory entry as seen by fs::read_dir: a file name and whether
it is a regular file. -/
structure DirEntry where
  name : String
  isFile : Bool
deriving DecidableEq

/-- Portion of a file name after the last dot, none when there is no
dot. -/
def afterLastDot : List Char → Option (List Char)
  | [] => none
  | '.' :: rest =>
      match afterLastDot rest with
      | some e => some e
      | none => some rest
  | _ :: rest => afterLastDot rest

/-- Rust Path::extension on a file name: none when there is no dot, or
when the name starts with a dot and has no further dot; otherwise the
portion after the final dot. -/
def rustExtension (name : List Char) : Option (List Char) :=
  match name with
  | '.' :: rest => afterLastDot rest
  | l => afterLastDot l

/-- Helper of trimLogSuffix working on the reversed name: strip every
leading occurrence of the reversed suffix ".log". -/
def stripLogRev : List Char → List Char
  | 'g' :: 'o' :: 'l' :: '.' :: rest => stripLogRev rest
  | l => l

/-- Rust str::trim_end_matches with pattern ".log": remove every
trailing occurrence of ".log". -/
def trimLogSuffix (name : List Char) : List Char :=
  (stripLogRev name.reverse).reverse

/-- Numeric value of an ascii digit. -/
def digitVal (c : Char) : Nat := c.toNat - 48

/-- Rust str::parse for u64: an optional leading plus sign, then one or
more ascii digits, and the value must fit in 64 bits. -/
def parseU64 (l : List Char) : Option Nat :=
  let ds := match l with
    | '+' :: rest => rest
    | _ => l
  if ds = [] then none
  else if ds.all Char.isDigit then
    let n := ds.foldl (fun acc c => acc * 10 + digitVal c) 0
    if n < 18446744073709551616 then some n else none
  else none

/-- The generation a directory entry contributes to get_log_list, none
when the pipeline filters the entry out (source: the iterator pipeline
inside get_log_list). -/
def entryGen (e : DirEntry) : Option Nat :=
  if e.isFile = true ∧ rustExtension e.name.data = some ['l', 'o', 'g'] then
    parseU64 (trimLogSuffix e.name.data)
  else none

/-- Source: fn get_log_list in kv.rs, over an abstract directory
listing. -/
def get_log_list (entries : List DirEntry) : List Nat :=
  List.insertionSort (fun a b => a ≤ b) (entries.filterMap entryGen)

/-- Modelled from the spec words for comparison with get_log_list: the
generation of a file name that is digits followed by ".log" (a nonempty
all-digit stem). -/
def specLogName (name : List Char) : Option Nat :=
  match name.reverse with
  | 'g' :: 'o' :: 'l' :: '.' :: revds =>
      let ds := revds.reverse
      if ds ≠ [] ∧ ds.all Char.isDigit then
        some (ds.foldl (fun acc c => acc * 10 + digitVal c) 0)
      else none
  | _ => none

/-- Modelled from the spec words for comparison with get_log_list: keep
exactly the regular files whose name matches digits ++ ".log" and
return their generations in ascending order. -/
def spec_log_list (entries : List DirEntry) : List Nat :=
  List.insertionSort (fun a b => a ≤ b)
    (entries.filterMap
      (fun e => if e.isFile = true then specLogName e.name.data else none))

/-- Reachability invariant of the engine state: the active segment
exists, every generation is at most the active one and is unique, index
keys are unique, the safe point is below the active generation and every
index entry, every index entry resolves to a Set record carrying its
key, and replaying the surviving segments in ascending generation order
rebuilds exactly the in-memory index. -/
structure StoreInv (s : KvState) : Prop where
  active : ∃ cs, filesLookup s.files s.currVersion = some cs
  gensLe : ∀ g ∈ gens s.files, g ≤ s.currVersion
  gensNodup : (gens s.files).Nodup
  keysNodup : (s.index.map Prod.fst).Nodup
  spLe : s.safePoint ≤ s.currVersion
  entrySp : ∀ k ci, idxLookup s.index k = some ci → s.safePoint ≤ ci.version
  resolve : ∀ k ci, idxLookup s.index k = some ci →
    ∃ v, readCmd s.files ci = some (Command.set k v)
  replay : ∀ k, idxLookup (replayAll s.files).1 k = idxLookup s.index k

/-- The engine state realises the abstract map m through storeGet. -/
def SimR (s : KvState) (m : String → Option String) : Prop :=
  ∀ k, storeGet s k = Except.ok (m k)

/-- Concrete example run used by the witnesses. -/
def exOps : List Op := [Op.set ("a") ("b")]

/-- The state reached from the empty store by exOps. -/
def exS1 : KvState :=
  ⟨[(1, [Command.set ("a") ("b")])], 1, 0, [(("a"), ⟨1, 0, 31⟩)], 0⟩

/-- The result of compacting exS1. -/
def exS2 : KvState :=
  ⟨[(3, []), (2, [Command.set ("a") ("b")])], 3, 0, [(("a"), ⟨2, 0, 31⟩)], 2⟩

/-! Basic lemmas about the index, the directory and record layout. -/

theorem encLen_pos (c : Command) : 0 < encLen c := by
  cases c <;> simp [encLen]

theorem idxLookup_erase (ix : Index) (k k' : String) :
    idxLookup (idxErase ix k) k' = if k = k' then none else idxLookup ix k' := by
  induction ix with
  | nil => simp [idxErase, idxLookup]
  | cons p rest ih =>
    obtain ⟨k0, ci0⟩ := p
    by_cases h0 : k0 = k
    · subst h0
      rw [show idxErase ((k0, ci0) :: rest) k0 = idxErase rest k0 from by
        simp [idxErase]]
      rw [ih]
      by_cases h1 : k0 = k'
      · simp [h1]
      · simp [idxLookup, h1]
    · rw [show idxErase ((k0, ci0) :: rest) k = (k0, ci0) :: idxErase rest k from by
        simp [idxErase, h0]]
      by_cases h1 : k0 = k'
      · subst h1
        have h3 : ¬ k = k0 := fun h => h0 h.symm
        simp [idxLookup, h3]
      · simp [idxLookup, h1, ih]

theorem idxLookup_insert (ix : Index) (k k' : String) (ci : CommandIndex) :
    idxLookup (idxInsert ix k ci) k' = if k = k' then some ci else idxLookup ix k' := by
  simp only [idxInsert, idxLookup]
  by_cases h : k = k'
  · simp [h]
  · simp [h, idxLookup_erase]

theorem idxLookup_eq_none_iff (ix : Index) (k : String) :
    idxLookup ix k = none ↔ k ∉ ix.map Prod.fst := by
  induction ix with
  | nil => simp [idxLookup]
  | cons p rest ih =>
    obtain ⟨k0, ci0⟩ := p
    by_cases h : k0 = k
    · subst h; simp [idxLookup]
    · have hk : ¬ k = k0 := fun he => h he.symm
      simp [idxLookup, h, ih, hk]

theorem idxLookup_of_mem (ix : Index) (k : String) (ci : CommandIndex)
    (hn : (ix.map Prod.fst).Nodup) (hm : (k, ci) ∈ ix) :
    idxLookup ix k = some ci := by
  induction ix with
  | nil => simp at hm
  | cons p rest ih =>
    obtain ⟨k0, ci0⟩ := p
    simp only [List.map_cons, List.nodup_cons] at hn
    rcases List.mem_cons.mp hm with h | h
    · injection h with h1 h2
      subst h1; subst h2
      simp [idxLookup]
    · have hk0 : k0 ≠ k := by
        intro he; subst he
        exact hn.1 (List.mem_map.mpr ⟨(k0, ci), h, rfl⟩)
      simp [idxLookup, hk0, ih hn.2 h]

theorem keys_erase_sublist (ix : Index) (k : String) :
    ((idxErase ix k).map Prod.fst).Sublist (ix.map Prod.fst) := by
  induction ix with
  | nil => simp [idxErase]
  | cons p rest ih =>
    obtain ⟨k0, ci0⟩ := p
    by_cases h : k0 = k
    · subst h
      simp only [idxErase, if_pos rfl, List.map_cons]
      exact ih.cons k0
    · simp only [idxErase, if_neg h, List.map_cons]
      exact ih.cons₂ k0

theorem mem_keys_erase (ix : Index) (k k' : String) :
    k' ∈ (idxErase ix k).map Prod.fst ↔ k' ∈ ix.map Prod.fst ∧ k' ≠ k := by
  induction ix with
  | nil => simp [idxErase]
  | cons p rest ih =>
    obtain ⟨k0, ci0⟩ := p
    by_cases h : k0 = k
    · subst h
      rw [show idxErase ((k0, ci0) :: rest) k0 = idxErase rest k0 from by
        simp [idxErase]]
      rw [ih]
      simp only [List.map_cons, List.mem_cons]
      constructor
      · rintro ⟨h1, h2⟩; exact ⟨Or.inr h1, h2⟩
      · rintro ⟨h1 | h1, h2⟩
        · exact absurd h1 h2
        · exact ⟨h1, h2⟩
    · rw [show idxErase ((k0, ci0) :: rest) k = (k0, ci0) :: idxErase rest k from by
        simp [idxErase, h]]
      simp only [List.map_cons, List.mem_cons, ih]
      constructor
      · rintro (h1 | ⟨h1, h2⟩)
        · refine ⟨Or.inl h1, ?_⟩
          rw [h1]
          exact fun he => h he
        · exact ⟨Or.inr h1, h2⟩
      · rintro ⟨h1 | h1, h2⟩
        · exact Or.inl h1
        · exact Or.inr ⟨h1, h2⟩

theorem keys_erase_nodup (ix : Index) (k : String)
    (hn : (ix.map Prod.fst).Nodup) : ((idxErase ix k).map Prod.fst).Nodup :=
  hn.sublist (keys_erase_sublist ix k)

theorem keys_insert_nodup (ix : Index) (k : String) (ci : CommandIndex)
    (hn : (ix.map Prod.fst).Nodup) :
    ((idxInsert ix k ci).map Prod.fst).Nodup := by
  simp only [idxInsert, List.map_cons, List.nodup_cons]
  refine ⟨?_, keys_erase_nodup ix k hn⟩
  intro hmem
  exact ((mem_keys_erase ix k k).mp hmem).2 rfl

theorem filesLookup_append_self (fs : Files) (g : Nat) (l : List Command) :
    filesLookup (filesAppend fs g l) g =
      (filesLookup fs g).map (fun cs => cs ++ l) := by
  induction fs with
  | nil => simp [filesAppend, filesLookup]
  | cons p rest ih =>
    obtain ⟨g0, cs0⟩ := p
    by_cases h : g0 = g
    · subst h; simp [filesAppend, filesLookup]
    · simp [filesAppend, filesLookup, h, ih]

theorem filesLookup_append_ne (fs : Files) (g g' : Nat) (l : List Command)
    (h : g' ≠ g) :
    filesLookup (filesAppend fs g l) g' = filesLookup fs g' := by
  induction fs with
  | nil => simp [filesAppend, filesLookup]
  | cons p rest ih =>
    obtain ⟨g0, cs0⟩ := p
    by_cases h0 : g0 = g
    · subst h0
      have h2 : ¬ g0 = g' := fun he => h he.symm
      rw [show filesAppend ((g0, cs0) :: rest) g0 l
            = (g0, cs0 ++ l) :: filesAppend rest g0 l from by
        simp [filesAppend]]
      simp [filesLookup, h2, ih]
    · rw [show filesAppend ((g0, cs0) :: rest) g l
            = (g0, cs0) :: filesAppend rest g l from by
        simp [filesAppend, h0]]
      by_cases h1 : g0 = g'
      · subst h1; simp [filesLookup]
      · simp [filesLookup, h1, ih]

theorem gens_filesAppend (fs : Files) (g : Nat) (l : List Command) :
    gens (filesAppend fs g l) = gens fs := by
  induction fs with
  | nil => simp [filesAppend, gens]
  | cons p rest ih =>
    obtain ⟨g0, cs0⟩ := p
    by_cases h : g0 = g
    · subst h
      simp only [filesAppend, if_pos rfl, gens, List.map_cons]
      exact congrArg (g0 :: ·) ih
    · simp only [filesAppend, if_neg h, gens, List.map_cons]
      exact congrArg (g0 :: ·) ih

theorem filesLookup_eq_none_iff (fs : Files) (g : Nat) :
    filesLookup fs g = none ↔ g ∉ gens fs := by
  induction fs with
  | nil => simp [filesLookup, gens]
  | cons p rest ih =>
    obtain ⟨g0, cs0⟩ := p
    by_cases h : g0 = g
    · subst h; simp [filesLookup, gens]
    · have hk : ¬ g = g0 := fun he => h he.symm
      simp [filesLookup, gens, h, ih, hk]

theorem filesLookup_appendList_some (fs fs' : Files) (g : Nat)
    (cs : List Command) (h : filesLookup fs g = some cs) :
    filesLookup (fs ++ fs') g = some cs := by
  induction fs with
  | nil => simp [filesLookup] at h
  | cons p rest ih =>
    obtain ⟨g0, cs0⟩ := p
    by_cases h0 : g0 = g
    · subst h0
      rw [show filesLookup ((g0, cs0) :: rest) g0 = some cs0 from by
        simp [filesLookup]] at h
      injection h with h1
      subst h1
      simp [filesLookup]
    · rw [show filesLookup ((g0, cs0) :: rest) g = filesLookup rest g from by
        simp [filesLookup, h0]] at h
      simp only [List.cons_append]
      rw [show filesLookup ((g0, cs0) :: (rest ++ fs')) g
            = filesLookup (rest ++ fs') g from by
        simp [filesLookup, h0]]
      exact ih h

theorem filesLookup_appendList_none (fs fs' : Files) (g : Nat)
    (h : filesLookup fs g = none) :
    filesLookup (fs ++ fs') g = filesLookup fs' g := by
  induction fs with
  | nil => simp [filesLookup]
  | cons p rest ih =>
    obtain ⟨g0, cs0⟩ := p
    by_cases h0 : g0 = g
    · subst h0; simp [filesLookup] at h
    · simp only [filesLookup, if_neg h0] at h
      simp [filesLookup, h0, ih h]

theorem filesLookup_deleteBelow (fs : Files) (cv g : Nat) :
    filesLookup (deleteBelow fs cv) g =
      if g < cv then none else filesLookup fs g := by
  induction fs with
  | nil => simp [deleteBelow, filesLookup]
  | cons p rest ih =>
    obtain ⟨g0, cs0⟩ := p
    by_cases h : g0 < cv
    · simp only [deleteBelow, if_pos h, ih]
      by_cases h1 : g0 = g
      · subst h1; simp [filesLookup, h]
      · simp [filesLookup, h1]
    · simp only [deleteBelow, if_neg h, filesLookup]
      by_cases h1 : g0 = g
      · subst h1; simp [if_neg h]
      · simp [h1, ih]

theorem findRec_extend (l l2 : List Command) (pos start len : Nat) (c : Command)
    (h : findRec l pos start len = some c) :
    findRec (l ++ l2) pos start len = some c := by
  induction l generalizing pos with
  | nil => simp [findRec] at h
  | cons c0 rest ih =>
    simp only [findRec, List.cons_append] at h ⊢
    by_cases h0 : start = pos
    · simp only [if_pos h0] at h ⊢
      exact h
    · simp only [if_neg h0] at h ⊢
      exact ih _ h

theorem findRec_last (l : List Command) (c : Command) (pos : Nat) :
    findRec (l ++ [c]) pos (pos + totalLen l) (encLen c) = some c := by
  induction l generalizing pos with
  | nil => simp [findRec, totalLen]
  | cons c0 rest ih =>
    have hpos : 0 < encLen c0 := encLen_pos c0
    have hne : ¬ (pos + totalLen (c0 :: rest) = pos) := by
      simp only [totalLen]; omega
    rw [show (c0 :: rest) ++ [c] = c0 :: (rest ++ [c]) from rfl]
    rw [show findRec (c0 :: (rest ++ [c])) pos (pos + totalLen (c0 :: rest)) (encLen c)
          = findRec (rest ++ [c]) (pos + encLen c0) (pos + totalLen (c0 :: rest)) (encLen c) from by
      simp [findRec, hne]]
    rw [show pos + totalLen (c0 :: rest) = (pos + encLen c0) + totalLen rest from by
      simp only [totalLen]; omega]
    exact ih (pos + encLen c0)

theorem findRec_len (l : List Command) (pos start len : Nat) (c : Command)
    (h : findRec l pos start len = some c) : len = encLen c := by
  induction l generalizing pos with
  | nil => simp [findRec] at h
  | cons c0 rest ih =>
    simp only [findRec] at h
    by_cases h0 : start = pos
    · simp only [if_pos h0] at h
      by_cases h1 : len = encLen c0
      · simp only [if_pos h1] at h
        injection h with h2
        subst h2; exact h1
      · simp [h1] at h
    · simp only [if_neg h0] at h
      exact ih _ h

theorem load_append (g : Nat) (l1 l2 : List Command) (pos : Nat) (ix : Index)
    (unc : Nat) :
    load g (l1 ++ l2) pos ix unc =
      load g l2 (pos + totalLen l1) (load g l1 pos ix unc).1
        (load g l1 pos ix unc).2 := by
  induction l1 generalizing pos ix unc with
  | nil => simp [load, totalLen]
  | cons c rest ih =>
    have harr : ∀ a b : Nat, pos + (a + b) = (pos + a) + b := by omega
    cases c with
    | set k v =>
      simp only [List.cons_append, load, totalLen, harr, List.append_eq]
      rw [ih]
    | remove k =>
      simp only [List.cons_append, load, totalLen, harr, List.append_eq]
      rw [ih]

/-! Sorting and replay lemmas. -/

theorem le_foldr_max (l : List Nat) : ∀ x ∈ l, x ≤ l.foldr max 0 := by
  induction l with
  | nil => simp
  | cons a rest ih =>
    intro x hx
    rcases List.mem_cons.mp hx with h | h
    · subst h
      simp only [List.foldr_cons]
      exact le_max_left _ _
    · simp only [List.foldr_cons]
      exact le_trans (ih x h) (le_max_right _ _)

theorem foldr_max_mem (l : List Nat) (h : l ≠ []) : l.foldr max 0 ∈ l := by
  induction l with
  | nil => simp at h
  | cons a rest ih =>
    by_cases hr : rest = []
    · subst hr
      simp
    · rcases Nat.le_total (rest.foldr max 0) a with hle | hle
      · simp only [List.foldr_cons, max_eq_left hle]
        exact List.mem_cons_self a rest
      · simp only [List.foldr_cons, max_eq_right hle]
        exact List.mem_cons_of_mem a (ih hr)

theorem sorted_le_getLast (l : List Nat)
    (hs : List.Sorted (fun a b => a ≤ b) l) (h : l ≠ []) :
    ∀ x ∈ l, x ≤ l.getLast h := by
  induction l with
  | nil => simp at h
  | cons a rest ih =>
    intro x hx
    by_cases hr : rest = []
    · subst hr
      simp only [List.mem_singleton] at hx
      subst hx
      simp [List.getLast]
    · rw [List.getLast_cons hr]
      rcases List.mem_cons.mp hx with h1 | h1
      · subst h1
        exact List.rel_of_sorted_cons hs _ (List.getLast_mem hr)
      · exact ih hs.of_cons hr x h1

theorem insertionSort_ne_nil (l : List Nat) (h : l ≠ []) :
    List.insertionSort (fun a b => a ≤ b) l ≠ [] := by
  intro he
  apply h
  have hlen := (List.perm_insertionSort (fun a b => a ≤ b) l).length_eq
  rw [he] at hlen
  exact List.eq_nil_of_length_eq_zero hlen.symm

theorem insertionSort_getLast_max (l : List Nat) :
    (List.insertionSort (fun a b => a ≤ b) l).getLast?.getD 0 = l.foldr max 0 := by
  by_cases h : l = []
  · subst h; rfl
  · have hperm := List.perm_insertionSort (fun a b => a ≤ b) l
    have hsorted := List.sorted_insertionSort (fun a b => a ≤ b) l
    have hne := insertionSort_ne_nil l h
    rw [List.getLast?_eq_getLast_of_ne_nil hne]
    simp only [Option.getD_some]
    have hm : l.foldr max 0 ∈ List.insertionSort (fun a b => a ≤ b) l :=
      hperm.mem_iff.mpr (foldr_max_mem l h)
    have h1 := sorted_le_getLast _ hsorted hne _ hm
    have h2 := le_foldr_max l _ (hperm.mem_iff.mp (List.getLast_mem hne))
    omega

theorem sorted_split_max (l : List Nat) (m : Nat) (hmem : m ∈ l)
    (hle : ∀ x ∈ l, x ≤ m) (hnd : l.Nodup) :
    ∃ pre, List.insertionSort (fun a b => a ≤ b) l = pre ++ [m] ∧ m ∉ pre := by
  have hperm := List.perm_insertionSort (fun a b => a ≤ b) l
  have hsorted := List.sorted_insertionSort (fun a b => a ≤ b) l
  have hne := insertionSort_ne_nil l (List.ne_nil_of_mem hmem)
  have hmt : m ∈ List.insertionSort (fun a b => a ≤ b) l := hperm.mem_iff.mpr hmem
  have h1 := sorted_le_getLast _ hsorted hne _ hmt
  have h2 := hle _ (hperm.mem_iff.mp (List.getLast_mem hne))
  have heq : (List.insertionSort (fun a b => a ≤ b) l).getLast hne = m := by omega
  refine ⟨(List.insertionSort (fun a b => a ≤ b) l).dropLast, ?_, ?_⟩
  · rw [← heq]
    exact (List.dropLast_append_getLast hne).symm
  · intro hmp
    have hndt : (List.insertionSort (fun a b => a ≤ b) l).Nodup :=
      hperm.nodup_iff.mpr hnd
    have hd := List.dropLast_append_getLast hne
    rw [← hd] at hndt
    rcases List.nodup_append.mp hndt with ⟨_, _, hdisj⟩
    exact hdisj hmp (by simp [heq])

theorem replay_foldl_congr (fs fs' : Files) (gl : List Nat) (r : Index × Nat)
    (h : ∀ g ∈ gl, filesLookup fs g = filesLookup fs' g) :
    gl.foldl (fun r g => load g ((filesLookup fs g).getD []) 0 r.1 r.2) r =
      gl.foldl (fun r g => load g ((filesLookup fs' g).getD []) 0 r.1 r.2) r := by
  induction gl generalizing r with
  | nil => rfl
  | cons g rest ih =>
    simp only [List.foldl_cons]
    rw [h g (List.mem_cons_self g rest)]
    exact ih _ (fun g' hg' => h g' (List.mem_cons_of_mem g hg'))

theorem replayGens_congr (fs fs' : Files) (gl : List Nat)
    (h : ∀ g ∈ gl, filesLookup fs g = filesLookup fs' g) :
    replayGens fs gl = replayGens fs' gl :=
  replay_foldl_congr fs fs' gl ([], 0) h

theorem replayGens_append_one (fs : Files) (pre : List Nat) (g : Nat) :
    replayGens fs (pre ++ [g]) =
      load g ((filesLookup fs g).getD []) 0 (replayGens fs pre).1
        (replayGens fs pre).2 := by
  simp only [replayGens, List.foldl_append, List.foldl_cons, List.foldl_nil]

theorem sortGens_filesAppend (fs : Files) (cv : Nat) (l : List Command) :
    sortGens (filesAppend fs cv l) = sortGens fs := by
  simp [sortGens, gens_filesAppend]

theorem replayAll_filesAppend (fs : Files) (cv : Nat) (c : Command)
    (hmem : cv ∈ gens fs) (hle : ∀ g ∈ gens fs, g ≤ cv)
    (hnd : (gens fs).Nodup) :
    replayAll (filesAppend fs cv [c]) =
      load cv [c] (totalLen ((filesLookup fs cv).getD []))
        (replayAll fs).1 (replayAll fs).2 := by
  obtain ⟨pre, hsplit, hnp⟩ := sorted_split_max (gens fs) cv hmem hle hnd
  have hsplit' : sortGens fs = pre ++ [cv] := hsplit
  obtain ⟨cs, hcs⟩ : ∃ cs, filesLookup fs cv = some cs := by
    cases hcv : filesLookup fs cv with
    | none =>
      exact absurd hmem ((filesLookup_eq_none_iff fs cv).mp hcv)
    | some cs => exact ⟨cs, rfl⟩
  have hsort2 : sortGens (filesAppend fs cv [c]) = pre ++ [cv] := by
    rw [sortGens_filesAppend, hsplit']
  have hcongr : replayGens (filesAppend fs cv [c]) pre = replayGens fs pre :=
    replayGens_congr _ fs pre
      (fun g hg => filesLookup_append_ne fs cv g [c] (fun he => hnp (he ▸ hg)))
  have hlook2 : filesLookup (filesAppend fs cv [c]) cv = some (cs ++ [c]) := by
    rw [filesLookup_append_self, hcs]
    rfl
  unfold replayAll
  rw [hsort2, hsplit', replayGens_append_one, replayGens_append_one, hcongr,
    hlook2, hcs]
  simp only [Option.getD_some]
  rw [load_append]
  simp only [Nat.zero_add]

/-! Lemmas about segment creation, deletion and the compaction loop. -/

theorem mem_gens_of_lookup_some (fs : Files) (g : Nat) (cs : List Command)
    (h : filesLookup fs g = some cs) : g ∈ gens fs := by
  by_contra hmem
  rw [(filesLookup_eq_none_iff fs g).mpr hmem] at h
  exact Option.noConfusion h

theorem mem_gens_filesCreate (fs : Files) (g g' : Nat) :
    g' ∈ gens (filesCreate fs g) ↔ g' ∈ gens fs ∨ g' = g := by
  unfold filesCreate
  cases h : filesLookup fs g with
  | some cs =>
    constructor
    · exact Or.inl
    · rintro (h1 | h1)
      · exact h1
      · subst h1; exact mem_gens_of_lookup_some fs g' cs h
  | none => simp [gens]

theorem filesAppend_not_mem (fs : Files) (g : Nat) (l : List Command)
    (h : g ∉ gens fs) : filesAppend fs g l = fs := by
  induction fs with
  | nil => rfl
  | cons p rest ih =>
    obtain ⟨g0, cs0⟩ := p
    simp only [gens, List.map_cons, List.mem_cons] at h
    push_neg at h
    have hne : ¬ g0 = g := fun he => h.1 he.symm
    simp only [filesAppend, if_neg hne]
    rw [ih (by simpa [gens] using h.2)]

theorem filesAppend_appendList (fs fs' : Files) (g : Nat) (l : List Command) :
    filesAppend (fs ++ fs') g l = filesAppend fs g l ++ filesAppend fs' g l := by
  induction fs with
  | nil => simp [filesAppend]
  | cons p rest ih =>
    obtain ⟨g0, cs0⟩ := p
    by_cases h : g0 = g
    · subst h; simp [filesAppend, ih]
    · simp [filesAppend, h, ih]

theorem deleteBelow_append (fs fs' : Files) (cv : Nat) :
    deleteBelow (fs ++ fs') cv = deleteBelow fs cv ++ deleteBelow fs' cv := by
  induction fs with
  | nil => simp [deleteBelow]
  | cons p rest ih =>
    obtain ⟨g0, cs0⟩ := p
    by_cases h : g0 < cv
    · simp [deleteBelow, h, ih]
    · simp [deleteBelow, h, ih]

theorem deleteBelow_eq_nil (fs : Files) (cv : Nat)
    (h : ∀ g ∈ gens fs, g < cv) : deleteBelow fs cv = [] := by
  induction fs with
  | nil => rfl
  | cons p rest ih =>
    obtain ⟨g0, cs0⟩ := p
    have h0 : g0 < cv := h g0 (by simp [gens])
    simp only [deleteBelow, if_pos h0]
    exact ih (fun g hg => h g (by simp [gens] at hg ⊢; exact Or.inr hg))

theorem readCmd_filesAppend (fs : Files) (g : Nat) (l : List Command)
    (ci : CommandIndex) (c : Command) (h : readCmd fs ci = some c) :
    readCmd (filesAppend fs g l) ci = some c := by
  unfold readCmd at h ⊢
  cases hl : filesLookup fs ci.version with
  | none => rw [hl] at h; exact Option.noConfusion h
  | some cs =>
    rw [hl] at h
    by_cases hv : ci.version = g
    · subst hv
      rw [filesLookup_append_self, hl]
      exact findRec_extend cs l 0 ci.start ci.len c h
    · rw [filesLookup_append_ne fs g ci.version l hv, hl]
      exact h

theorem compactLoop_keys (entries : Index) (fs : Files) (cv pos : Nat)
    (ix' : Index) (copied : List Command)
    (h : compactLoop entries fs cv pos = some (ix', copied)) :
    ix'.map Prod.fst = entries.map Prod.fst := by
  induction entries generalizing pos ix' copied with
  | nil =>
    simp only [compactLoop] at h
    injection h with h1
    injection h1 with h2 h3
    subst h2
    rfl
  | cons p rest ih =>
    obtain ⟨k0, ci0⟩ := p
    simp only [compactLoop] at h
    cases hr : readCmd fs ci0 with
    | none => rw [hr] at h; exact Option.noConfusion h
    | some c0 =>
      rw [hr] at h
      cases hc : compactLoop rest fs cv (pos + ci0.len) with
      | none => rw [hc] at h; exact Option.noConfusion h
      | some pr =>
        obtain ⟨ixr, cr⟩ := pr
        rw [hc] at h
        injection h with h1
        injection h1 with h2 h3
        subst h2
        simp only [List.map_cons]
        exact congrArg (k0 :: ·) (ih _ _ _ hc)

theorem compactLoop_isSome (entries : Index) (fs : Files) (cv : Nat) :
    ∀ pos, (∀ p ∈ entries, (readCmd fs p.2).isSome = true) →
      ∃ pr, compactLoop entries fs cv pos = some pr := by
  induction entries with
  | nil => exact fun pos _ => ⟨([], []), rfl⟩
  | cons p rest ih =>
    intro pos h
    obtain ⟨k0, ci0⟩ := p
    have h0 : (readCmd fs ci0).isSome = true := h (k0, ci0) (by simp)
    cases hr : readCmd fs ci0 with
    | none => rw [hr] at h0; exact Bool.noConfusion h0
    | some c0 =>
      obtain ⟨⟨ixr, cr⟩, hc⟩ :=
        ih (pos + ci0.len) (fun q hq => h q (List.mem_cons_of_mem _ hq))
      exact ⟨((k0, ⟨cv, pos, ci0.len⟩) :: ixr, c0 :: cr), by
        simp only [compactLoop, hr, hc]⟩

theorem compactLoop_lookup (entries : Index) (fs : Files) (cv : Nat) :
    ∀ pos ix' copied, compactLoop entries fs cv pos = some (ix', copied) →
      ∀ k ci', idxLookup ix' k = some ci' →
        ∃ ci, idxLookup entries k = some ci ∧ ci'.version = cv ∧
          ci'.len = ci.len ∧ pos ≤ ci'.start ∧
          findRec copied pos ci'.start ci'.len = readCmd fs ci := by
  induction entries with
  | nil =>
    intro pos ix' copied h k ci' hk
    simp only [compactLoop] at h
    injection h with h1
    injection h1 with h2 h3
    subst h2
    simp [idxLookup] at hk
  | cons p rest ih =>
    intro pos ix' copied h k ci' hk
    obtain ⟨k0, ci0⟩ := p
    simp only [compactLoop] at h
    cases hr : readCmd fs ci0 with
    | none => rw [hr] at h; exact Option.noConfusion h
    | some c0 =>
      rw [hr] at h
      cases hc : compactLoop rest fs cv (pos + ci0.len) with
      | none => rw [hc] at h; exact Option.noConfusion h
      | some pr =>
        obtain ⟨ixr, cr⟩ := pr
        rw [hc] at h
        injection h with h1
        injection h1 with h2 h3
        subst h2
        subst h3
        have hlen0 : ci0.len = encLen c0 := by
          unfold readCmd at hr
          cases hf : filesLookup fs ci0.version with
          | none => rw [hf] at hr; exact Option.noConfusion hr
          | some cs =>
            rw [hf] at hr
            exact findRec_len cs 0 ci0.start ci0.len c0 hr
        by_cases hkk : k0 = k
        · subst hkk
          rw [show idxLookup ((k0, (⟨cv, pos, ci0.len⟩ : CommandIndex)) :: ixr) k0
                = some ⟨cv, pos, ci0.len⟩ from by simp [idxLookup]] at hk
          injection hk with hk1
          subst hk1
          refine ⟨ci0, by simp [idxLookup], rfl, rfl, le_refl _, ?_⟩
          simp [findRec, hlen0, hr]
        · rw [show idxLookup ((k0, (⟨cv, pos, ci0.len⟩ : CommandIndex)) :: ixr) k
                = idxLookup ixr k from by simp [idxLookup, hkk]] at hk
          obtain ⟨ci, hci, hv, hlen, hpos, hfind⟩ := ih _ _ _ hc k ci' hk
          refine ⟨ci, by simp [idxLookup, hkk, hci], hv, hlen, ?_, ?_⟩
          · have := encLen_pos c0
            omega
          · have hst : ¬ ci'.start = pos := by
              have := encLen_pos c0
              omega
            rw [show findRec (c0 :: cr) pos ci'.start ci'.len
                  = findRec cr (pos + encLen c0) ci'.start ci'.len from by
              simp [findRec, hst]]
            rw [← hlen0]
            exact hfind

theorem mem_keys_of_lookup_some (ix : Index) (k : String) (ci : CommandIndex)
    (h : idxLookup ix k = some ci) : k ∈ ix.map Prod.fst := by
  by_contra hmem
  rw [(idxLookup_eq_none_iff ix k).mpr hmem] at h
  exact Option.noConfusion h

theorem fileExists_iff_mem (fs : Files) (g : Nat) :
    fileExists fs g = true ↔ g ∈ gens fs := by
  unfold fileExists
  cases h : filesLookup fs g with
  | none =>
    simp only [Option.isSome_none, Bool.false_eq_true, false_iff]
    exact (filesLookup_eq_none_iff fs g).mp h
  | some cs =>
    simp only [Option.isSome_some, true_iff]
    exact mem_gens_of_lookup_some fs g cs h

theorem or_none_eq (o : Option CommandIndex) : o.or none = o := by
  cases o <;> rfl

theorem compactLoop_load (entries : Index) (fs : Files) (cv : Nat) :
    ∀ pos ix' copied, compactLoop entries fs cv pos = some (ix', copied) →
      (∀ p ∈ entries, ∃ v, readCmd fs p.2 = some (Command.set p.1 v)) →
      (entries.map Prod.fst).Nodup →
      ∀ ix0 unc0 k, idxLookup (load cv copied pos ix0 unc0).1 k =
        (idxLookup ix' k).or (idxLookup ix0 k) := by
  induction entries with
  | nil =>
    intro pos ix' copied h _ _ ix0 unc0 k
    simp only [compactLoop] at h
    injection h with h1
    injection h1 with h2 h3
    subst h2
    subst h3
    simp [load, idxLookup, Option.or]
  | cons p rest ih =>
    intro pos ix' copied h hres hnd ix0 unc0 k
    obtain ⟨k0, ci0⟩ := p
    simp only [compactLoop] at h
    cases hr : readCmd fs ci0 with
    | none => rw [hr] at h; exact Option.noConfusion h
    | some c0 =>
      rw [hr] at h
      cases hc : compactLoop rest fs cv (pos + ci0.len) with
      | none => rw [hc] at h; exact Option.noConfusion h
      | some pr =>
        obtain ⟨ixr, cr⟩ := pr
        rw [hc] at h
        injection h with h1
        injection h1 with h2 h3
        subst h2
        subst h3
        obtain ⟨v0, hv0⟩ := hres (k0, ci0) (List.mem_cons_self _ _)
        rw [hr] at hv0
        injection hv0 with hc0
        subst hc0
        have hlen0 : ci0.len = encLen (Command.set k0 v0) := by
          unfold readCmd at hr
          cases hf : filesLookup fs ci0.version with
          | none => rw [hf] at hr; exact Option.noConfusion hr
          | some cs =>
            rw [hf] at hr
            exact findRec_len cs 0 ci0.start ci0.len _ hr
        simp only [List.map_cons, List.nodup_cons] at hnd
        have hstep : load cv (Command.set k0 v0 :: cr) pos ix0 unc0 =
            load cv cr (pos + encLen (Command.set k0 v0))
              (idxInsert ix0 k0 ⟨cv, pos, encLen (Command.set k0 v0)⟩)
              (match idxLookup ix0 k0 with
               | some old => unc0 + old.len
               | none => unc0) := by
          simp [load]
        rw [hstep, ← hlen0]
        rw [ih _ _ _ hc (fun q hq => hres q (List.mem_cons_of_mem _ hq)) hnd.2]
        by_cases hkk : k0 = k
        · subst hkk
          have hnone : idxLookup ixr k0 = none := by
            rw [idxLookup_eq_none_iff, compactLoop_keys rest fs cv _ _ _ hc]
            exact hnd.1
          rw [hnone]
          rw [show idxLookup ((k0, (⟨cv, pos, ci0.len⟩ : CommandIndex)) :: ixr) k0
                = some ⟨cv, pos, ci0.len⟩ from by simp [idxLookup]]
          rw [idxLookup_insert]
          simp [Option.or, hlen0]
        · rw [show idxLookup ((k0, (⟨cv, pos, ci0.len⟩ : CommandIndex)) :: ixr) k
                = idxLookup ixr k from by simp [idxLookup, hkk]]
          rw [idxLookup_insert, if_neg hkk]

theorem compact_ok (s : KvState) (hI : StoreInv s) :
    ∃ s', compact s = some s' ∧ StoreInv s' ∧
      ∀ k, storeGet s' k = storeGet s k := by
  obtain ⟨act, hact⟩ := hI.active
  have hnv_lookup : filesLookup s.files (s.currVersion + 2) = none := by
    rw [filesLookup_eq_none_iff]
    intro hmem
    have := hI.gensLe _ hmem
    omega
  have hcv_lookup : filesLookup s.files (s.currVersion + 1) = none := by
    rw [filesLookup_eq_none_iff]
    intro hmem
    have := hI.gensLe _ hmem
    omega
  have hcv_notmem : s.currVersion + 1 ∉ gens s.files :=
    (filesLookup_eq_none_iff s.files (s.currVersion + 1)).mp hcv_lookup
  have h1 : filesCreate s.files (s.currVersion + 2)
      = s.files ++ [(s.currVersion + 2, [])] := by
    simp only [filesCreate, hnv_lookup]
  have h2look : filesLookup (s.files ++ [(s.currVersion + 2, [])])
      (s.currVersion + 1) = none := by
    rw [filesLookup_appendList_none _ _ _ hcv_lookup]
    simp [filesLookup, show ¬ s.currVersion + 2 = s.currVersion + 1 from by omega]
  have h2 : filesCreate (s.files ++ [(s.currVersion + 2, [])]) (s.currVersion + 1)
      = (s.files ++ [(s.currVersion + 2, [])]) ++ [(s.currVersion + 1, [])] := by
    simp only [filesCreate, h2look]
  have hfs1some : ∀ g cs, filesLookup s.files g = some cs →
      filesLookup ((s.files ++ [(s.currVersion + 2, [])]) ++ [(s.currVersion + 1, [])]) g
        = some cs := by
    intro g cs h
    exact filesLookup_appendList_some _ _ _ _ (filesLookup_appendList_some _ _ _ _ h)
  have hread1 : ∀ ci c, readCmd s.files ci = some c →
      readCmd ((s.files ++ [(s.currVersion + 2, [])]) ++ [(s.currVersion + 1, [])]) ci
        = some c := by
    intro ci c h
    unfold readCmd at h ⊢
    cases hl : filesLookup s.files ci.version with
    | none => rw [hl] at h; exact Option.noConfusion h
    | some cs =>
      rw [hl] at h
      rw [hfs1some _ _ hl]
      exact h
  have hresolve1 : ∀ p ∈ s.index,
      ∃ v, readCmd ((s.files ++ [(s.currVersion + 2, [])]) ++ [(s.currVersion + 1, [])]) p.2
        = some (Command.set p.1 v) := by
    intro p hp
    obtain ⟨v, hv⟩ := hI.resolve p.1 p.2
      (idxLookup_of_mem s.index p.1 p.2 hI.keysNodup (by
        cases p; exact hp))
    exact ⟨v, hread1 _ _ hv⟩
  obtain ⟨⟨ix', copied⟩, hloop⟩ :=
    compactLoop_isSome s.index
      ((s.files ++ [(s.currVersion + 2, [])]) ++ [(s.currVersion + 1, [])])
      (s.currVersion + 1) 0
      (fun p hp => by
        obtain ⟨v, hv⟩ := hresolve1 p hp
        rw [hv]
        rfl)
  have happ : filesAppend
      ((s.files ++ [(s.currVersion + 2, [])]) ++ [(s.currVersion + 1, [])])
      (s.currVersion + 1) copied
      = (s.files ++ [(s.currVersion + 2, [])]) ++ [(s.currVersion + 1, copied)] := by
    rw [filesAppend_appendList, filesAppend_appendList]
    rw [filesAppend_not_mem s.files (s.currVersion + 1) copied hcv_notmem]
    simp [filesAppend, show ¬ s.currVersion + 2 = s.currVersion + 1 from by omega]
  have hdel : deleteBelow
      ((s.files ++ [(s.currVersion + 2, [])]) ++ [(s.currVersion + 1, copied)])
      (s.currVersion + 1)
      = [(s.currVersion + 2, []), (s.currVersion + 1, copied)] := by
    rw [deleteBelow_append, deleteBelow_append]
    rw [deleteBelow_eq_nil s.files (s.currVersion + 1)
      (fun g hg => by have := hI.gensLe g hg; omega)]
    simp [deleteBelow, show ¬ s.currVersion + 2 < s.currVersion + 1 from by omega,
      show ¬ s.currVersion + 1 < s.currVersion + 1 from by omega]
  have hcompact : compact s = some
      { files := [(s.currVersion + 2, []), (s.currVersion + 1, copied)]
      , currVersion := s.currVersion + 2
      , uncompacted := 0
      , index := ix'
      , safePoint := s.currVersion + 1 } := by
    simp only [compact, h1, h2, hloop, happ, hdel]
  have hkeys := compactLoop_keys s.index
    ((s.files ++ [(s.currVersion + 2, [])]) ++ [(s.currVersion + 1, [])])
    (s.currVersion + 1) 0 ix' copied hloop
  have hlook3 : filesLookup
      [(s.currVersion + 2, ([] : List Command)), (s.currVersion + 1, copied)]
      (s.currVersion + 1) = some copied := by
    simp [filesLookup, show ¬ s.currVersion + 2 = s.currVersion + 1 from by omega]
  refine ⟨_, hcompact, ?_, ?_⟩
  · constructor
    · exact ⟨[], by simp [filesLookup]⟩
    · show ∀ g ∈ gens [(s.currVersion + 2, ([] : List Command)),
        (s.currVersion + 1, copied)], g ≤ s.currVersion + 2
      intro g hg
      simp only [gens, List.map_cons, List.map_nil, List.mem_cons,
        List.mem_singleton] at hg
      rcases hg with h | h | h
      · omega
      · omega
      · simp at h
    · show (gens [(s.currVersion + 2, ([] : List Command)),
        (s.currVersion + 1, copied)]).Nodup
      simp [gens, show s.currVersion + 2 ≠ s.currVersion + 1 from by omega]
    · show (ix'.map Prod.fst).Nodup
      rw [hkeys]; exact hI.keysNodup
    · show s.currVersion + 1 ≤ s.currVersion + 2
      omega
    · show ∀ k ci', idxLookup ix' k = some ci' → s.currVersion + 1 ≤ ci'.version
      intro k ci' hk
      obtain ⟨ci, _, hv, _, _, _⟩ := compactLoop_lookup s.index _ _ _ _ _ hloop k ci' hk
      simp only [hv]
      exact le_refl _
    · intro k ci' hk
      obtain ⟨ci, hci, hv, hlen, _, hfind⟩ :=
        compactLoop_lookup s.index _ _ _ _ _ hloop k ci' hk
      obtain ⟨v, hvv⟩ := hI.resolve k ci hci
      have hfr : findRec copied 0 ci'.start ci'.len = some (Command.set k v) := by
        rw [hfind, hread1 _ _ hvv]
      refine ⟨v, ?_⟩
      unfold readCmd
      rw [hv, hlook3]
      exact hfr
    · intro k
      have hsorted : sortGens [(s.currVersion + 2, ([] : List Command)),
          (s.currVersion + 1, copied)] = [s.currVersion + 1, s.currVersion + 2] := by
        simp [sortGens, gens, List.insertionSort, List.orderedInsert,
          show ¬ s.currVersion + 2 ≤ s.currVersion + 1 from by omega]
      have hload := compactLoop_load s.index _ _ _ _ _ hloop hresolve1 hI.keysNodup
        [] 0 k
      unfold replayAll
      rw [hsorted]
      simp only [replayGens, List.foldl_cons, List.foldl_nil, hlook3,
        Option.getD_some]
      rw [show filesLookup [(s.currVersion + 2, ([] : List Command)),
            (s.currVersion + 1, copied)] (s.currVersion + 2) = some [] from by
        simp [filesLookup]]
      simp only [Option.getD_some, load]
      rw [hload]
      rw [show idxLookup [] k = (none : Option CommandIndex) from rfl]
      exact or_none_eq _
  · intro k
    cases hl : idxLookup s.index k with
    | none =>
      have hl' : idxLookup ix' k = none := by
        rw [idxLookup_eq_none_iff, hkeys]
        exact (idxLookup_eq_none_iff s.index k).mp hl
      simp [storeGet, hl, hl']
    | some ci =>
      have hmem : k ∈ ix'.map Prod.fst := by
        rw [hkeys]
        exact mem_keys_of_lookup_some s.index k ci hl
      cases hl' : idxLookup ix' k with
      | none =>
        exact absurd ((idxLookup_eq_none_iff ix' k).mp hl') (by simp [hmem])
      | some ci' =>
        obtain ⟨ci2, hci2, hv, hlen, _, hfind⟩ :=
          compactLoop_lookup s.index _ _ _ _ _ hloop k ci' hl'
        rw [hl] at hci2
        injection hci2 with hci2e
        subst hci2e
        obtain ⟨v, hvv⟩ := hI.resolve k ci hl
        have hfr : findRec copied 0 ci'.start ci'.len = some (Command.set k v) := by
          rw [hfind, hread1 _ _ hvv]
        have hrc3 : readCmd [(s.currVersion + 2, ([] : List Command)),
            (s.currVersion + 1, copied)] ci' = some (Command.set k v) := by
          unfold readCmd
          rw [hv, hlook3]
          exact hfr
        simp [storeGet, hl, hl', hvv, hrc3]

theorem readCmd_mk (fs : Files) (g st ln : Nat) :
    readCmd fs ⟨g, st, ln⟩ =
      match filesLookup fs g with
      | none => none
      | some cs => findRec cs 0 st ln := rfl

theorem storeGet_of_none (s : KvState) (k : String)
    (h : idxLookup s.index k = none) : storeGet s k = Except.ok none := by
  unfold storeGet
  rw [h]

theorem storeGet_of_set (s : KvState) (k k2 v : String) (ci : CommandIndex)
    (h1 : idxLookup s.index k = some ci)
    (h2 : readCmd s.files ci = some (Command.set k2 v)) :
    storeGet s k = Except.ok (some v) := by
  unfold storeGet
  rw [h1]
  dsimp only
  rw [h2]

theorem writerSet_inv (s : KvState) (k v : String) (hI : StoreInv s) :
    StoreInv (writerSet s k v) ∧
      ∀ k', storeGet (writerSet s k v) k' =
        if k = k' then Except.ok (some v) else storeGet s k' := by
  obtain ⟨act, hact⟩ := hI.active
  have hmem : s.currVersion ∈ gens s.files := mem_gens_of_lookup_some _ _ _ hact
  have hwp : writerPos s = totalLen act := by
    simp [writerPos, hact]
  have hfl_self : filesLookup (filesAppend s.files s.currVersion [Command.set k v])
      s.currVersion = some (act ++ [Command.set k v]) := by
    rw [filesLookup_append_self, hact]
    rfl
  have hfl_ne : ∀ g, g ≠ s.currVersion →
      filesLookup (filesAppend s.files s.currVersion [Command.set k v]) g
        = filesLookup s.files g :=
    fun g hg => filesLookup_append_ne s.files s.currVersion g _ hg
  have hres_new : readCmd (filesAppend s.files s.currVersion [Command.set k v])
      ⟨s.currVersion, writerPos s, encLen (Command.set k v)⟩
      = some (Command.set k v) := by
    rw [readCmd_mk, hfl_self]
    rw [hwp, show totalLen act = 0 + totalLen act from (Nat.zero_add _).symm]
    exact findRec_last act (Command.set k v) 0
  have hidx : (writerSet s k v).index
      = idxInsert s.index k ⟨s.currVersion, writerPos s, encLen (Command.set k v)⟩ := rfl
  have hfiles : (writerSet s k v).files
      = filesAppend s.files s.currVersion [Command.set k v] := rfl
  have hcv : (writerSet s k v).currVersion = s.currVersion := rfl
  have hsp : (writerSet s k v).safePoint = s.safePoint := rfl
  have hreplayEq : replayAll (filesAppend s.files s.currVersion [Command.set k v])
      = load s.currVersion [Command.set k v] (totalLen act)
          (replayAll s.files).1 (replayAll s.files).2 := by
    have := replayAll_filesAppend s.files s.currVersion (Command.set k v)
      hmem hI.gensLe hI.gensNodup
    rw [this, hact]
    rfl
  constructor
  · constructor
    · rw [hfiles, hcv]
      exact ⟨act ++ [Command.set k v], hfl_self⟩
    · rw [hfiles, hcv, gens_filesAppend]
      exact hI.gensLe
    · rw [hfiles, gens_filesAppend]
      exact hI.gensNodup
    · rw [hidx]
      exact keys_insert_nodup s.index k _ hI.keysNodup
    · rw [hsp, hcv]
      exact hI.spLe
    · intro k' ci hk
      rw [hidx, idxLookup_insert] at hk
      rw [hsp]
      by_cases hkk : k = k'
      · rw [if_pos hkk] at hk
        injection hk with hke
        subst hke
        exact hI.spLe
      · rw [if_neg hkk] at hk
        exact hI.entrySp k' ci hk
    · intro k' ci hk
      rw [hidx, idxLookup_insert] at hk
      rw [hfiles]
      by_cases hkk : k = k'
      · rw [if_pos hkk] at hk
        injection hk with hke
        subst hke
        subst hkk
        exact ⟨v, hres_new⟩
      · rw [if_neg hkk] at hk
        obtain ⟨v', hv'⟩ := hI.resolve k' ci hk
        exact ⟨v', readCmd_filesAppend s.files s.currVersion _ ci _ hv'⟩
    · intro k'
      rw [hfiles, hidx, hreplayEq]
      rw [show (load s.currVersion [Command.set k v] (totalLen act)
            (replayAll s.files).1 (replayAll s.files).2).1
          = idxInsert (replayAll s.files).1 k
              ⟨s.currVersion, totalLen act, encLen (Command.set k v)⟩ from by
        simp [load]]
      rw [idxLookup_insert, idxLookup_insert, hwp]
      by_cases hkk : k = k'
      · simp [hkk]
      · simp only [if_neg hkk]
        exact hI.replay k'
  · intro k'
    by_cases hkk : k = k'
    · subst hkk
      have hl : idxLookup (writerSet s k v).index k
          = some ⟨s.currVersion, writerPos s, encLen (Command.set k v)⟩ := by
        rw [hidx, idxLookup_insert, if_pos rfl]
      have hr : readCmd (writerSet s k v).files
          ⟨s.currVersion, writerPos s, encLen (Command.set k v)⟩
          = some (Command.set k v) := by
        rw [hfiles]
        exact hres_new
      rw [storeGet_of_set _ k k v _ hl hr, if_pos rfl]
    · have hl : idxLookup (writerSet s k v).index k' = idxLookup s.index k' := by
        rw [hidx, idxLookup_insert, if_neg hkk]
      rw [if_neg hkk]
      cases hlk : idxLookup s.index k' with
      | none =>
        rw [storeGet_of_none _ _ (hl.trans hlk), storeGet_of_none _ _ hlk]
      | some ci =>
        obtain ⟨v', hv'⟩ := hI.resolve k' ci hlk
        have hr2 : readCmd (writerSet s k v).files ci
            = some (Command.set k' v') := by
          rw [hfiles]
          exact readCmd_filesAppend s.files s.currVersion _ ci _ hv'
        rw [storeGet_of_set _ k' k' v' ci (hl.trans hlk) hr2,
          storeGet_of_set _ k' k' v' ci hlk hv']

theorem writerRemove_inv (s : KvState) (k : String) (old : CommandIndex)
    (hI : StoreInv s) (hl : idxLookup s.index k = some old) :
    ∃ s1, writerRemove s k = Except.ok s1 ∧ StoreInv s1 ∧
      s1.uncompacted = s.uncompacted + old.len + encLen (Command.remove k) ∧
      ∀ k', storeGet s1 k' = if k = k' then Except.ok none else storeGet s k' := by
  obtain ⟨act, hact⟩ := hI.active
  have hmem : s.currVersion ∈ gens s.files := mem_gens_of_lookup_some _ _ _ hact
  refine ⟨{ s with files := filesAppend s.files s.currVersion [Command.remove k]
                 , uncompacted := s.uncompacted + old.len + encLen (Command.remove k)
                 , index := idxErase s.index k }, ?_, ?_, rfl, ?_⟩
  · unfold writerRemove
    rw [hl]
  · constructor
    · exact ⟨act ++ [Command.remove k], by
        rw [show ({ s with
              files := filesAppend s.files s.currVersion [Command.remove k]
            , uncompacted := s.uncompacted + old.len + encLen (Command.remove k)
            , index := idxErase s.index k } : KvState).files
            = filesAppend s.files s.currVersion [Command.remove k] from rfl]
        rw [filesLookup_append_self, hact]
        rfl⟩
    · show ∀ g ∈ gens (filesAppend s.files s.currVersion [Command.remove k]),
        g ≤ s.currVersion
      rw [gens_filesAppend]
      exact hI.gensLe
    · show (gens (filesAppend s.files s.currVersion [Command.remove k])).Nodup
      rw [gens_filesAppend]
      exact hI.gensNodup
    · show ((idxErase s.index k).map Prod.fst).Nodup
      exact keys_erase_nodup s.index k hI.keysNodup
    · show s.safePoint ≤ s.currVersion
      exact hI.spLe
    · show ∀ k' ci, idxLookup (idxErase s.index k) k' = some ci →
        s.safePoint ≤ ci.version
      intro k' ci hk
      rw [idxLookup_erase] at hk
      by_cases hkk : k = k'
      · rw [if_pos hkk] at hk
        exact Option.noConfusion hk
      · rw [if_neg hkk] at hk
        exact hI.entrySp k' ci hk
    · show ∀ k' ci, idxLookup (idxErase s.index k) k' = some ci →
        ∃ v, readCmd (filesAppend s.files s.currVersion [Command.remove k]) ci
          = some (Command.set k' v)
      intro k' ci hk
      rw [idxLookup_erase] at hk
      by_cases hkk : k = k'
      · rw [if_pos hkk] at hk
        exact Option.noConfusion hk
      · rw [if_neg hkk] at hk
        obtain ⟨v', hv'⟩ := hI.resolve k' ci hk
        exact ⟨v', readCmd_filesAppend s.files s.currVersion _ ci _ hv'⟩
    · show ∀ k', idxLookup
        (replayAll (filesAppend s.files s.currVersion [Command.remove k])).1 k'
        = idxLookup (idxErase s.index k) k'
      intro k'
      have hreplayEq : replayAll (filesAppend s.files s.currVersion [Command.remove k])
          = load s.currVersion [Command.remove k] (totalLen act)
              (replayAll s.files).1 (replayAll s.files).2 := by
        have := replayAll_filesAppend s.files s.currVersion (Command.remove k)
          hmem hI.gensLe hI.gensNodup
        rw [this, hact]
        rfl
      rw [hreplayEq]
      rw [show (load s.currVersion [Command.remove k] (totalLen act)
            (replayAll s.files).1 (replayAll s.files).2).1
          = idxErase (replayAll s.files).1 k from by simp [load]]
      rw [idxLookup_erase, idxLookup_erase]
      by_cases hkk : k = k'
      · simp [hkk]
      · simp only [if_neg hkk]
        exact hI.replay k'
  · intro k'
    by_cases hkk : k = k'
    · subst hkk
      rw [if_pos rfl]
      refine storeGet_of_none _ _ ?_
      show idxLookup (idxErase s.index k) k = none
      rw [idxLookup_erase, if_pos rfl]
    · rw [if_neg hkk]
      have hle : idxLookup (idxErase s.index k) k' = idxLookup s.index k' := by
        rw [idxLookup_erase, if_neg hkk]
      cases hlk : idxLookup s.index k' with
      | none =>
        rw [storeGet_of_none _ _ (hle.trans hlk), storeGet_of_none _ _ hlk]
      | some ci =>
        obtain ⟨v', hv'⟩ := hI.resolve k' ci hlk
        rw [storeGet_of_set _ k' k' v' ci (hle.trans hlk)
            (readCmd_filesAppend s.files s.currVersion _ ci _ hv'),
          storeGet_of_set _ k' k' v' ci hlk hv']

theorem stepOp_ok (s : KvState) (m : String → Option String) (hI : StoreInv s)
    (hS : SimR s m) (op : Op) :
    ∃ s', stepOp s op = some s' ∧ StoreInv s' ∧ SimR s' (specStep m op) := by
  cases op with
  | set k v =>
    obtain ⟨hI1, hget1⟩ := writerSet_inv s k v hI
    have hS1 : SimR (writerSet s k v) (specStep m (Op.set k v)) := by
      intro k'
      rw [hget1 k']
      by_cases hkk : k = k'
      · simp [specStep, hkk]
      · simp only [specStep, if_neg hkk]
        exact hS k'
    by_cases hth : COMPACTION_THRESHOLD < (writerSet s k v).uncompacted
    · obtain ⟨s2, hc, hI2, hget2⟩ := compact_ok (writerSet s k v) hI1
      refine ⟨s2, ?_, hI2, fun k' => (hget2 k').trans (hS1 k')⟩
      show doSet s k v = some s2
      unfold doSet
      rw [if_pos hth, hc]
    · refine ⟨writerSet s k v, ?_, hI1, hS1⟩
      show doSet s k v = some (writerSet s k v)
      unfold doSet
      rw [if_neg hth]
  | remove k =>
    cases hl : idxLookup s.index k with
    | none =>
      have hdr : doRemove s k = Except.error KvError.KeyNotFound := by
        unfold doRemove writerRemove
        rw [hl]
      refine ⟨s, ?_, hI, ?_⟩
      · show stepOp s (Op.remove k) = some s
        simp only [stepOp, hdr]
      · intro k'
        by_cases hkk : k = k'
        · subst hkk
          simp only [specStep, if_pos rfl]
          exact storeGet_of_none s k hl
        · simp only [specStep, if_neg hkk]
          exact hS k'
    | some old =>
      obtain ⟨s1, hwr, hI1, hunc, hget1⟩ := writerRemove_inv s k old hI hl
      have hS1 : SimR s1 (specStep m (Op.remove k)) := by
        intro k'
        rw [hget1 k']
        by_cases hkk : k = k'
        · simp [specStep, hkk]
        · simp only [specStep, if_neg hkk]
          exact hS k'
      by_cases hth : COMPACTION_THRESHOLD < s1.uncompacted
      · obtain ⟨s2, hc, hI2, hget2⟩ := compact_ok s1 hI1
        have hdr : doRemove s k = Except.ok s2 := by
          unfold doRemove
          rw [hwr]
          dsimp only
          rw [if_pos hth, hc]
        refine ⟨s2, ?_, hI2, fun k' => (hget2 k').trans (hS1 k')⟩
        show stepOp s (Op.remove k) = some s2
        simp only [stepOp, hdr]
      · have hdr : doRemove s k = Except.ok s1 := by
          unfold doRemove
          rw [hwr]
          dsimp only
          rw [if_neg hth]
        refine ⟨s1, ?_, hI1, hS1⟩
        show stepOp s (Op.remove k) = some s1
        simp only [stepOp, hdr]

theorem runOps_ok (ops : List Op) : ∀ s0 m s, StoreInv s0 → SimR s0 m →
    runOps s0 ops = some s → StoreInv s ∧ SimR s (specRun m ops) := by
  induction ops with
  | nil =>
    intro s0 m s hI hS hrun
    simp only [runOps] at hrun
    injection hrun with he
    subst he
    exact ⟨hI, hS⟩
  | cons op rest ih =>
    intro s0 m s hI hS hrun
    obtain ⟨s1, hstep, hI1, hS1⟩ := stepOp_ok s0 m hI hS op
    simp only [runOps, hstep] at hrun
    exact ih s1 (specStep m op) s hI1 hS1 hrun

theorem initState_eq : initState = ⟨[(1, [])], 1, 0, [], 0⟩ := by decide

theorem storeInv_init : StoreInv initState := by
  rw [initState_eq]
  constructor
  · exact ⟨[], by simp [filesLookup]⟩
  · intro g hg
    simp [gens] at hg
    subst hg
    exact le_refl 1
  · simp [gens]
  · simp
  · exact Nat.zero_le 1
  · intro k ci h
    simp [idxLookup] at h
  · intro k ci h
    simp [idxLookup] at h
  · intro k
    show idxLookup (replayAll [(1, [])]).1 k = idxLookup [] k
    rw [show (replayAll [(1, ([] : List Command))]).1 = [] from by decide]

theorem simR_init : SimR initState emptyMap := by
  intro k
  exact storeGet_of_none initState k rfl

theorem runOps_init_ok (ops : List Op) (s : KvState)
    (h : runOps initState ops = some s) :
    StoreInv s ∧ SimR s (specRun emptyMap ops) :=
  runOps_ok ops initState emptyMap s storeInv_init simR_init h

theorem mem_remove_timeout_log (c : Cache) (sp g : Nat) :
    g ∈ remove_timeout_log c sp ↔ (g ∈ c ∧ sp ≤ g) := by
  induction c with
  | nil => simp [remove_timeout_log]
  | cons g0 rest ih =>
    by_cases h : g0 < sp
    · simp only [remove_timeout_log, if_pos h, ih, List.mem_cons]
      constructor
      · rintro ⟨h1, h2⟩; exact ⟨Or.inr h1, h2⟩
      · rintro ⟨h1 | h1, h2⟩
        · subst h1; omega
        · exact ⟨h1, h2⟩
    · simp only [remove_timeout_log, if_neg h, List.mem_cons, ih]
      constructor
      · rintro (h1 | ⟨h1, h2⟩)
        · subst h1; exact ⟨Or.inl rfl, by omega⟩
        · exact ⟨Or.inr h1, h2⟩
      · rintro ⟨h1 | h1, h2⟩
        · exact Or.inl h1
        · exact Or.inr ⟨h1, h2⟩

theorem read_command_cache_mem (c : Cache) (sp : Nat) (ci : CommandIndex)
    (g : Nat) :
    g ∈ read_command_cache c sp ci ↔
      (g = ci.version ∨ (g ∈ c ∧ sp ≤ g)) := by
  unfold read_command_cache
  by_cases hm : ci.version ∈ remove_timeout_log c sp
  · rw [if_pos hm, mem_remove_timeout_log]
    constructor
    · exact fun h => Or.inr h
    · rintro (h | h)
      · subst h
        exact (mem_remove_timeout_log c sp _).mp hm
      · exact h
  · rw [if_neg hm]
    simp only [List.mem_cons, mem_remove_timeout_log]

/-! The claims. -/

/-- C1: for every sequence of engine operations starting from the empty
store, get(k) returns Some of the value of the last set(k, v) not
followed by a remove(k), and None when there is no such set. -/
theorem C1_round_trip (ops : List Op) (s : KvState) (k : String)
    (h : runOps initState ops = some s) :
    storeGet s k = Except.ok (specRun emptyMap ops k) :=
  (runOps_init_ok ops s h).2 k

theorem C1_round_trip_witness :
    runOps initState exOps = some exS1 ∧
      storeGet exS1 ("a") = Except.ok (specRun emptyMap exOps ("a")) :=
  ⟨by decide, C1_round_trip exOps exS1 ("a") (by decide)⟩

/-- C2: in every reachable engine state, the index rebuilt by replaying
the surviving segments in ascending generation order (as open does)
maps exactly the same keys to the same values as the in-memory index. -/
theorem C2_replay_equivalence (ops : List Op) (s : KvState)
    (h : runOps initState ops = some s) :
    ∀ k, idxLookup (openStore s.files).index k = idxLookup s.index k := by
  intro k
  have hrep := (runOps_init_ok ops s h).1.replay k
  rw [show (openStore s.files).index = (replayAll s.files).1 from rfl]
  exact hrep

theorem C2_replay_equivalence_witness :
    idxLookup (openStore exS1.files).index ("a") = idxLookup exS1.index ("a") :=
  C2_replay_equivalence exOps exS1 (by decide) ("a")

/-- C3: after compact() returns, the destination generation is the old
active generation + 1 and the new active generation is the old + 2; the
safe point equals the destination generation; every index entry refers
to a generation at least the safe point; and exactly the segment files
strictly below the destination generation are deleted. -/
theorem C3_compaction_postconditions (s s' : KvState)
    (h : compact s = some s') :
    s'.safePoint = s.currVersion + 1 ∧
    s'.currVersion = s.currVersion + 2 ∧
    (∀ k ci, idxLookup s'.index k = some ci → s'.safePoint ≤ ci.version) ∧
    (∀ g, fileExists s.files g = true → fileExists s'.files g = false →
      g < s.currVersion + 1) ∧
    (∀ g, fileExists s.files g = true → s.currVersion + 1 ≤ g →
      fileExists s'.files g = true) := by
  simp only [compact] at h
  cases hloop : compactLoop s.index
      (filesCreate (filesCreate s.files (s.currVersion + 2)) (s.currVersion + 1))
      (s.currVersion + 1) 0 with
  | none =>
    rw [hloop] at h
    exact Option.noConfusion h
  | some pr =>
    obtain ⟨ix', copied⟩ := pr
    rw [hloop] at h
    injection h with he
    subst he
    have hkeep : ∀ g, fileExists s.files g = true → s.currVersion + 1 ≤ g →
        fileExists (deleteBelow (filesAppend
          (filesCreate (filesCreate s.files (s.currVersion + 2)) (s.currVersion + 1))
          (s.currVersion + 1) copied) (s.currVersion + 1)) g = true := by
      intro g hex hge
      unfold fileExists at hex ⊢
      rw [filesLookup_deleteBelow, if_neg (by omega)]
      have hmem : g ∈ gens s.files := by
        cases hl : filesLookup s.files g with
        | none => rw [hl] at hex; exact absurd hex (by simp)
        | some cs => exact mem_gens_of_lookup_some _ _ _ hl
      have hmem2 : g ∈ gens (filesAppend
          (filesCreate (filesCreate s.files (s.currVersion + 2)) (s.currVersion + 1))
          (s.currVersion + 1) copied) := by
        rw [gens_filesAppend]
        exact (mem_gens_filesCreate _ _ _).mpr
          (Or.inl ((mem_gens_filesCreate _ _ _).mpr (Or.inl hmem)))
      cases hl2 : filesLookup (filesAppend
          (filesCreate (filesCreate s.files (s.currVersion + 2)) (s.currVersion + 1))
          (s.currVersion + 1) copied) g with
      | none => exact absurd hmem2 ((filesLookup_eq_none_iff _ _).mp hl2)
      | some cs => rfl
    refine ⟨rfl, rfl, ?_, ?_, hkeep⟩
    · intro k ci hk
      obtain ⟨ci0, _, hv, _, _, _⟩ :=
        compactLoop_lookup s.index _ _ _ _ _ hloop k ci hk
      show s.currVersion + 1 ≤ ci.version
      omega
    · intro g hex hnex
      by_contra hge
      push_neg at hge
      rw [hkeep g hex hge] at hnex
      exact Bool.noConfusion hnex

theorem C3_compaction_postconditions_witness :
    exS2.safePoint = exS1.currVersion + 1 ∧
    exS2.currVersion = exS1.currVersion + 2 ∧
    exS2.safePoint ≤ (⟨2, 0, 31⟩ : CommandIndex).version ∧
    (1 : Nat) < exS1.currVersion + 1 :=
  have h := C3_compaction_postconditions exS1 exS2 (by decide)
  ⟨h.1, h.2.1, h.2.2.1 ("a") ⟨2, 0, 31⟩ (by decide),
    h.2.2.2.1 1 (by decide) (by decide)⟩

/-- C4: in every reachable state, remove(k) on an absent key fails with
KeyNotFound and leaves the state (log, index, counter, generation)
unchanged; remove(k) on a present key succeeds. -/
theorem C4_remove_semantics (ops : List Op) (s : KvState) (k : String)
    (h : runOps initState ops = some s) :
    (idxLookup s.index k = none →
      doRemove s k = Except.error KvError.KeyNotFound ∧
      stepOp s (Op.remove k) = some s) ∧
    (idxLookup s.index k ≠ none → ∃ s', doRemove s k = Except.ok s') := by
  obtain ⟨hI, _⟩ := runOps_init_ok ops s h
  constructor
  · intro hl
    have hdr : doRemove s k = Except.error KvError.KeyNotFound := by
      unfold doRemove writerRemove
      rw [hl]
    exact ⟨hdr, by simp only [stepOp, hdr]⟩
  · intro hl
    cases hlk : idxLookup s.index k with
    | none => exact absurd hlk hl
    | some old =>
      obtain ⟨s1, hwr, hI1, _, _⟩ := writerRemove_inv s k old hI hlk
      by_cases hth : COMPACTION_THRESHOLD < s1.uncompacted
      · obtain ⟨s2, hc, _, _⟩ := compact_ok s1 hI1
        refine ⟨s2, ?_⟩
        unfold doRemove
        rw [hwr]
        dsimp only
        rw [if_pos hth, hc]
      · refine ⟨s1, ?_⟩
        unfold doRemove
        rw [hwr]
        dsimp only
        rw [if_neg hth]

theorem C4_remove_semantics_witness :
    (doRemove initState ("a") = Except.error KvError.KeyNotFound ∧
      stepOp initState (Op.remove ("a")) = some initState) ∧
    (∃ s', doRemove exS1 ("a") = Except.ok s') :=
  ⟨(C4_remove_semantics [] initState ("a") (by decide)).1 (by decide),
    (C4_remove_semantics exOps exS1 ("a") (by decide)).2 (by decide)⟩

/-- C5: set increments the uncompacted counter by exactly the
overwritten record's length (by nothing for a fresh key), a successful
remove increments it by the old record's length plus the Remove record's
own length, and compaction resets it to 0. -/
theorem C5_uncompacted_accounting (s : KvState) (k v : String) :
    ((writerSet s k v).uncompacted
      = s.uncompacted + ((idxLookup s.index k).map CommandIndex.len).getD 0) ∧
    (∀ old, idxLookup s.index k = some old →
      ∃ s1, writerRemove s k = Except.ok s1 ∧
        s1.uncompacted = s.uncompacted + old.len + encLen (Command.remove k)) ∧
    (∀ s', compact s = some s' → s'.uncompacted = 0) := by
  refine ⟨?_, ?_, ?_⟩
  · show (match idxLookup s.index k with
        | some old => s.uncompacted + old.len
        | none => s.uncompacted)
      = s.uncompacted + ((idxLookup s.index k).map CommandIndex.len).getD 0
    cases hl : idxLookup s.index k <;> simp
  · intro old hl
    refine ⟨{ s with
        files := filesAppend s.files s.currVersion [Command.remove k]
      , uncompacted := s.uncompacted + old.len + encLen (Command.remove k)
      , index := idxErase s.index k }, ?_, rfl⟩
    unfold writerRemove
    rw [hl]
  · intro s' h
    simp only [compact] at h
    cases hloop : compactLoop s.index
        (filesCreate (filesCreate s.files (s.currVersion + 2)) (s.currVersion + 1))
        (s.currVersion + 1) 0 with
    | none =>
      rw [hloop] at h
      exact Option.noConfusion h
    | some pr =>
      obtain ⟨ix', copied⟩ := pr
      rw [hloop] at h
      injection h with he
      subst he
      rfl

theorem C5_uncompacted_accounting_witness :
    ((writerSet exS1 ("a") ("c")).uncompacted
      = exS1.uncompacted + ((idxLookup exS1.index ("a")).map CommandIndex.len).getD 0) ∧
    (∃ s1, writerRemove exS1 ("a") = Except.ok s1 ∧
      s1.uncompacted = exS1.uncompacted + (⟨1, 0, 31⟩ : CommandIndex).len
        + encLen (Command.remove ("a"))) ∧
    exS2.uncompacted = 0 :=
  ⟨(C5_uncompacted_accounting exS1 ("a") ("c")).1,
    (C5_uncompacted_accounting exS1 ("a") ("c")).2.1 ⟨1, 0, 31⟩ (by decide),
    (C5_uncompacted_accounting exS1 ("a") ("c")).2.2 exS2 (by decide)⟩

/-- C6 counterexample: the file name 12.log.log does not match
digits ++ ".log", yet get_log_list includes generation 12 for it,
because trim_end_matches strips the ".log" suffix repeatedly. -/
theorem C6_log_listing_counterexample :
    get_log_list [⟨("12.log.log"), true⟩] = [12] ∧
      spec_log_list [⟨("12.log.log"), true⟩] = [] := by
  decide

/-- C6 (amended): listing the log files yields an ascending sorted
sequence holding one generation per directory entry that survives the
code's pipeline (a regular file with extension log whose name, after
repeatedly stripping the ".log" suffix, parses as a u64), and the result
is independent of the order in which the OS enumerates the directory. -/
theorem C6_log_listing_amended (entries : List DirEntry) :
    List.Sorted (fun a b => a ≤ b) (get_log_list entries) ∧
    (get_log_list entries).Perm (entries.filterMap entryGen) ∧
    (∀ entries', entries.Perm entries' →
      get_log_list entries = get_log_list entries') := by
  refine ⟨List.sorted_insertionSort _ _, List.perm_insertionSort _ _, ?_⟩
  intro entries' hp
  unfold get_log_list
  refine List.eq_of_perm_of_sorted ?_
    (List.sorted_insertionSort _ _) (List.sorted_insertionSort _ _)
  exact ((List.perm_insertionSort _ _).trans (hp.filterMap entryGen)).trans
    (List.perm_insertionSort _ _).symm

theorem C6_log_listing_amended_witness :
    List.Sorted (fun a b => a ≤ b)
      (get_log_list [⟨("2.log"), true⟩, ⟨("1.log"), true⟩]) ∧
    get_log_list [⟨("2.log"), true⟩, ⟨("1.log"), true⟩]
      = get_log_list [⟨("1.log"), true⟩, ⟨("2.log"), true⟩] :=
  ⟨(C6_log_listing_amended [⟨("2.log"), true⟩, ⟨("1.log"), true⟩]).1,
    (C6_log_listing_amended [⟨("2.log"), true⟩, ⟨("1.log"), true⟩]).2.2
      [⟨("1.log"), true⟩, ⟨("2.log"), true⟩] (by decide)⟩

/-- C7: open replays all existing segments in ascending generation order
(rebuilding index and uncompacted counter) and creates the new active
segment, empty, at generation max+1, which is 1 when the directory holds
no segment. -/
theorem C7_open_behaviour (dir : Files) :
    (openStore dir).currVersion = (gens dir).foldr max 0 + 1 ∧
    (openStore dir).index = (replayAll dir).1 ∧
    (openStore dir).uncompacted = (replayAll dir).2 ∧
    List.Sorted (fun a b => a ≤ b) (sortGens dir) ∧
    filesLookup (openStore dir).files ((gens dir).foldr max 0 + 1) = some [] := by
  have hmax : (sortGens dir).getLast?.getD 0 = (gens dir).foldr max 0 :=
    insertionSort_getLast_max (gens dir)
  have hcg : (openStore dir).currVersion = (gens dir).foldr max 0 + 1 := by
    show (sortGens dir).getLast?.getD 0 + 1 = (gens dir).foldr max 0 + 1
    rw [hmax]
  have hnot : filesLookup dir ((gens dir).foldr max 0 + 1) = none := by
    rw [filesLookup_eq_none_iff]
    intro hmem
    have := le_foldr_max (gens dir) _ hmem
    omega
  refine ⟨hcg, rfl, rfl, List.sorted_insertionSort _ _, ?_⟩
  show filesLookup (filesCreate dir ((sortGens dir).getLast?.getD 0 + 1))
    ((gens dir).foldr max 0 + 1) = some []
  rw [hmax]
  unfold filesCreate
  rw [hnot]
  dsimp only
  rw [filesLookup_appendList_none _ _ _ hnot]
  simp [filesLookup]

/-- C8: the cache effect of a read is exactly: evict every cached
generation strictly below the safe point, then open the referenced
generation lazily if absent; consequently, for reads of index entries in
reachable states, the cache after the read holds no generation strictly
below the observed safe point. -/
theorem C8_reader_cache (ci : CommandIndex) :
    (∀ c sp g, g ∈ read_command_cache c sp ci ↔
      (g = ci.version ∨ (g ∈ c ∧ sp ≤ g))) ∧
    (∀ ops s k c, runOps initState ops = some s →
      idxLookup s.index k = some ci →
      ∀ g ∈ read_command_cache c s.safePoint ci, s.safePoint ≤ g) := by
  constructor
  · exact fun c sp g => read_command_cache_mem c sp ci g
  · intro ops s k c hrun hl g hg
    have hI := (runOps_init_ok ops s hrun).1
    rcases (read_command_cache_mem c s.safePoint ci g).mp hg with h | h
    · subst h
      exact hI.entrySp k ci hl
    · exact h.2

theorem C8_reader_cache_witness :
    (1 ∈ read_command_cache [] exS1.safePoint ⟨1, 0, 31⟩ ↔
      (1 = (⟨1, 0, 31⟩ : CommandIndex).version ∨
        (1 ∈ ([] : Cache) ∧ exS1.safePoint ≤ 1))) ∧
    exS1.safePoint ≤ 1 :=
  ⟨(C8_reader_cache ⟨1, 0, 31⟩).1 [] exS1.safePoint 1,
    (C8_reader_cache ⟨1, 0, 31⟩).2 exOps exS1 ("a") [] (by decide) (by decide)
      1 (by decide)⟩

/-- C9: get never modifies the shared engine state: the state threaded
through a get session is returned unchanged in every field, and the
result agrees with the pure read; only the handle's private cache may
change. -/
theorem C9_get_frame (s : KvState) (c : Cache) (k : String) :
    (getSession s c k).2.1 = s ∧
    (getSession s c k).2.1.index = s.index ∧
    (getSession s c k).2.1.files = s.files ∧
    (getSession s c k).2.1.currVersion = s.currVersion ∧
    (getSession s c k).2.1.uncompacted = s.uncompacted ∧
    (getSession s c k).2.1.safePoint = s.safePoint ∧
    (getSession s c k).1 = storeGet s k := by
  cases hl : idxLookup s.index k with
  | none => simp [getSession, storeGet, hl]
  | some ci =>
    cases hr : readCmd s.files ci with
    | none => simp [getSession, storeGet, hl, hr]
    | some cmd =>
      cases cmd with
      | set k2 v => simp [getSession, storeGet, hl, hr]
      | remove k2 => simp [getSession, storeGet, hl, hr]

/-- C10: the engine accepts the empty string as key and as value: after
set("", v) from the empty store, get("") returns Some v, and remove("")
succeeds. -/
theorem C10_empty_key_value (v : String) :
    ∃ s, runOps initState [Op.set ("") v] = some s ∧
      storeGet s ("") = Except.ok (some v) ∧
      ∃ s2, doRemove s ("") = Except.ok s2 := by
  obtain ⟨s, hstep, hI, hS⟩ :=
    stepOp_ok initState emptyMap storeInv_init simR_init (Op.set ("") v)
  refine ⟨s, ?_, ?_, ?_⟩
  · simp only [runOps, hstep]
  · have hg := hS ("")
    rw [hg]
    simp [specStep]
  · cases hl : idxLookup s.index ("") with
    | none =>
      have h0 := hS ("")
      rw [storeGet_of_none s ("") hl] at h0
      simp [specStep] at h0
    | some old =>
      obtain ⟨s1, hwr, hI1, _, _⟩ := writerRemove_inv s ("") old hI hl
      by_cases hth : COMPACTION_THRESHOLD < s1.uncompacted
      · obtain ⟨s2, hc, _, _⟩ := compact_ok s1 hI1
        refine ⟨s2, ?_⟩
        unfold doRemove
        rw [hwr]
        dsimp only
        rw [if_pos hth, hc]
      · refine ⟨s1, ?_⟩
        unfold doRemove
        rw [hwr]
        dsimp only
        rw [if_neg hth]
